import Mathlib

/-!
# Verification of `xor-utils` (`src/lib.rs`)

Shallow embedding of the Rust crate `xor-utils`, a toolkit for repeated-key
XOR ciphers, together with proofs of the specified properties.

Bytes are modelled as `Nat` (the Rust code works on `u8`; all operations here
preserve the `< 256` range, and none of the verified properties depend on it).
The Rust `f32` arithmetic of the estimator and the scorer is modelled exactly
over `ℚ`; the single reachable IEEE special value (the `0.0 / 0.0 = NaN`
arising in `Score for String` when scoring the empty string) is modelled as
`Option.none`.
-/

namespace XorUtils

/-- Failure taxonomy for the transform.  `invalidKey` is modelled from the
spec's error taxonomy (§7, "InvalidKey — key sequence is empty where a
non-empty key is required"); the Rust code itself defines no such error:
`key_bytes[key_idx]` on an empty slice raises an index-out-of-bounds panic,
modelled by `indexOutOfBounds len idx`. -/
inductive XorFailure where
  | invalidKey : XorFailure
  | indexOutOfBounds (len idx : Nat) : XorFailure
deriving DecidableEq, Repr

/-- The per-invocation mutable state of `fn xor` in `src/lib.rs`:
`key_idx`, `warning_shown`, and the output vector `encoded_bytes`.
`warnCount` additionally counts how many times the `warn!` statement
executes, so that "at most once" is a provable property rather than a
consequence of the modelling. -/
structure XorState where
  keyIdx : Nat
  warnShown : Bool
  warnCount : Nat
  out : List Nat
deriving DecidableEq, Repr

/-- One iteration of the inner `for b in data_bytes` loop of `fn xor`
(src/lib.rs lines 37-53): look up `key_bytes[key_idx]` (a panic when out of
range, which happens exactly when the key is empty), XOR, push, advance
`key_idx`, and on reaching `key_bytes.len()` reduce it modulo the length and
emit the one-time warning. -/
def xorStep (key : List Nat) (s : XorState) (b : Nat) : Except XorFailure XorState :=
  match key.get? s.keyIdx with
  | none => .error (.indexOutOfBounds key.length s.keyIdx)
  | some k =>
      let e := b ^^^ k
      let out := s.out ++ [e]
      let keyIdx := s.keyIdx + 1
      if keyIdx ≥ key.length then
        let keyIdx := keyIdx % key.length
        if ¬ s.warnShown then
          .ok { keyIdx := keyIdx, warnShown := true, warnCount := s.warnCount + 1, out := out }
        else
          .ok { keyIdx := keyIdx, warnShown := s.warnShown, warnCount := s.warnCount, out := out }
      else
        .ok { keyIdx := keyIdx, warnShown := s.warnShown, warnCount := s.warnCount, out := out }

/-- The loop of `fn xor` over all input bytes.  The Rust code reads the
source in 1024-byte chunks; since `key_idx` and `warning_shown` persist
across chunks, the byte-level behaviour is a single left fold over the whole
input byte sequence. -/
def xorFold (key : List Nat) : XorState → List Nat → Except XorFailure XorState
  | s, [] => .ok s
  | s, b :: bs =>
      match xorStep key s b with
      | .error e => .error e
      | .ok s' => xorFold key s' bs

/-- `fn xor` (src/lib.rs lines 21-57): run the loop from the initial state
`key_idx = 0`, `warning_shown = false`, empty output. -/
def xorRun (input key : List Nat) : Except XorFailure XorState :=
  xorFold key ⟨0, false, 0, []⟩ input

/-- The byte sequence produced by a successful transform. -/
def xorBytes (input key : List Nat) : List Nat :=
  match xorRun input key with
  | .ok s => s.out
  | .error _ => []

/-! ## Master lemma for the transform loop -/

/-- The output bytes produced by processing `bs` when the running key index
starts at `j`: byte `i` is `bs[i] ^^^ key[(j + i) % key.length]`. -/
def xorChunk (key : List Nat) : Nat → List Nat → List Nat
  | _, [] => []
  | j, b :: bs => (b ^^^ key.getD (j % key.length) 0) :: xorChunk key (j + 1) bs

theorem xorChunk_length (key : List Nat) (j : Nat) (bs : List Nat) :
    (xorChunk key j bs).length = bs.length := by
  induction bs generalizing j with
  | nil => rfl
  | cons b bs ih => simp [xorChunk, ih]

theorem xorChunk_congr (key : List Nat) (j₁ j₂ : Nat)
    (h : j₁ % key.length = j₂ % key.length) (bs : List Nat) :
    xorChunk key j₁ bs = xorChunk key j₂ bs := by
  induction bs generalizing j₁ j₂ with
  | nil => rfl
  | cons b bs ih =>
      simp only [xorChunk, h]
      refine congrArg _ (ih (j₁ + 1) (j₂ + 1) ?_)
      rw [Nat.add_mod j₁, Nat.add_mod j₂, h]

theorem xorChunk_getD (key : List Nat) (j : Nat) (bs : List Nat) (i : Nat) :
    (xorChunk key j bs).getD i 0 =
      if i < bs.length then bs.getD i 0 ^^^ key.getD ((j + i) % key.length) 0
      else 0 := by
  induction bs generalizing j i with
  | nil => simp [xorChunk]
  | cons b bs ih =>
      cases i with
      | zero => simp [xorChunk]
      | succ i =>
          have e : j + 1 + i = j + (i + 1) := by omega
          simp only [xorChunk, List.getD_cons_succ, ih, List.length_cons, e]
          by_cases h : i < bs.length
          · rw [if_pos h, if_pos (by omega : i + 1 < bs.length + 1)]
          · rw [if_neg h, if_neg (by omega : ¬ i + 1 < bs.length + 1)]

theorem xorStep_wrap (key : List Nat) (j : Nat) (w : Bool) (c : Nat)
    (o : List Nat) (b : Nat) (hw : j + 1 = key.length) :
    xorStep key ⟨j, w, c, o⟩ b =
      .ok ⟨0, true, c + (if w then 0 else 1), o ++ [b ^^^ key.getD j 0]⟩ := by
  have hget : key.get? j = some (key.getD j 0) := by
    rw [List.getD_eq_getD_get?]
    cases h : key.get? j with
    | none => exact absurd (List.get?_eq_none.mp h) (by omega)
    | some k => rfl
  rw [xorStep]
  simp only [hget]
  have h1 : j + 1 ≥ key.length := by omega
  have h2 : (j + 1) % key.length = 0 := by rw [hw]; exact Nat.mod_self _
  cases w <;> simp [h1, h2]

theorem xorStep_nowrap (key : List Nat) (j : Nat) (w : Bool) (c : Nat)
    (o : List Nat) (b : Nat)
    (hw : j + 1 < key.length) :
    xorStep key ⟨j, w, c, o⟩ b =
      .ok ⟨j + 1, w, c, o ++ [b ^^^ key.getD j 0]⟩ := by
  have hget : key.get? j = some (key.getD j 0) := by
    rw [List.getD_eq_getD_get?]
    cases h : key.get? j with
    | none => exact absurd (List.get?_eq_none.mp h) (by omega)
    | some k => rfl
  rw [xorStep]
  simp only [hget]
  simp [show ¬ j + 1 ≥ key.length by omega]

/-- Unfolding the loop one step when the step succeeds. -/
theorem xorFold_cons_ok (key : List Nat) (s s' : XorState) (b : Nat)
    (bs : List Nat) (h : xorStep key s b = .ok s') :
    xorFold key s (b :: bs) = xorFold key s' bs := by
  rw [xorFold, h]

/-- Master lemma: from a state whose key index is in range, the loop
succeeds; it appends `xorChunk` to the output, advances the key index modulo
the key length, and the warning fires exactly when the cumulative position
`j + bs.length` reaches the key length. -/
theorem xorFold_ok (key : List Nat) (hkey : key ≠ []) :
    ∀ (bs : List Nat) (j : Nat) (w : Bool) (c : Nat) (o : List Nat),
      j < key.length →
      xorFold key ⟨j, w, c, o⟩ bs = .ok
        ⟨(j + bs.length) % key.length,
         w || decide (key.length ≤ j + bs.length),
         c + (if w then 0 else if key.length ≤ j + bs.length then 1 else 0),
         o ++ xorChunk key j bs⟩ := by
  intro bs
  induction bs with
  | nil =>
      intro j w c o hj
      have h1 : j % key.length = j := Nat.mod_eq_of_lt hj
      have h2 : ¬ key.length ≤ j := by omega
      simp only [xorFold, xorChunk, List.length_nil, Nat.add_zero, h1,
        List.append_nil]
      refine congrArg _ (XorState.mk.injEq .. ▸ ⟨rfl, ?_, ?_, rfl⟩)
      · simp [h2]
      · simp [h2]
  | cons b bs ih =>
      intro j w c o hj
      have hlen : 0 < key.length := List.length_pos.mpr hkey
      by_cases hwrap : j + 1 = key.length
      · rw [xorFold_cons_ok key _ _ b bs (xorStep_wrap key j w c o b hwrap)]
        rw [ih 0 true (c + (if w then 0 else 1)) _ hlen]
        have e1 : (0 + bs.length) % key.length = (j + (b :: bs).length) % key.length := by
          simp only [List.length_cons]
          rw [Nat.zero_add, show j + (bs.length + 1) = bs.length + key.length by omega]
          rw [Nat.add_mod_right]
        have e2 : key.length ≤ j + (bs.length + 1) := by omega
        have e3 : xorChunk key j (b :: bs)
            = (b ^^^ key.getD (j % key.length) 0) :: xorChunk key (j + 1) bs := rfl
        have e4 : xorChunk key (j + 1) bs = xorChunk key 0 bs := by
          refine xorChunk_congr key (j + 1) 0 ?_ bs
          rw [hwrap, Nat.mod_self, Nat.zero_mod]
        congr 1
        refine XorState.mk.injEq .. ▸ ⟨?_, ?_, ?_, ?_⟩
        · rw [e1]
        · simp [e2]
        · cases w <;> simp [e2]
        · rw [e3, Nat.mod_eq_of_lt hj, e4]
          simp
      · have hwrap' : j + 1 < key.length := by omega
        rw [xorFold_cons_ok key _ _ b bs (xorStep_nowrap key j w c o b hwrap')]
        rw [ih (j + 1) w c _ hwrap']
        have e1 : j + 1 + bs.length = j + (b :: bs).length := by
          simp only [List.length_cons]; omega
        have e3 : xorChunk key j (b :: bs)
            = (b ^^^ key.getD (j % key.length) 0) :: xorChunk key (j + 1) bs := rfl
        congr 1
        refine XorState.mk.injEq .. ▸ ⟨?_, ?_, ?_, ?_⟩
        · rw [e1]
        · rw [e1]
        · rw [e1]
        · rw [e3, Nat.mod_eq_of_lt hj]
          simp

/-- Packaged form: a successful run from the initial state. -/
theorem xorRun_ok (input key : List Nat) (hkey : key ≠ []) :
    xorRun input key = .ok
      ⟨input.length % key.length,
       decide (key.length ≤ input.length),
       if key.length ≤ input.length then 1 else 0,
       xorChunk key 0 input⟩ := by
  have h := xorFold_ok key hkey input 0 false 0 []
    (List.length_pos.mpr hkey)
  rw [xorRun, h]
  simp

/-- The round-trip core: XOR-ing twice with the same running key index is
the identity, because `(b ^^^ k) ^^^ k = b`. -/
theorem xorChunk_involutive (key : List Nat) :
    ∀ (j : Nat) (bs : List Nat), xorChunk key j (xorChunk key j bs) = bs := by
  intro j bs
  induction bs generalizing j with
  | nil => rfl
  | cons b bs ih =>
      simp only [xorChunk]
      refine congrArg₂ _ ?_ (ih (j + 1))
      rw [Nat.xor_assoc, Nat.xor_self, Nat.xor_zero]

/-- `xorBytes` in closed form for a non-empty key. -/
theorem xorBytes_eq (input key : List Nat) (hkey : key ≠ []) :
    xorBytes input key = xorChunk key 0 input := by
  rw [xorBytes, xorRun_ok input key hkey]

/-! ## Claims C1-C4 -/

/-- C1: for every input byte sequence and every non-empty key, the XOR
transform produces an output of identical length to the input in which
`output[i] = input[i] XOR key[i mod key.length]` for every index `i`. -/
theorem C1_xor_length_and_pointwise (input key : List Nat) (hkey : key ≠ []) :
    (xorBytes input key).length = input.length ∧
    ∀ i, i < input.length →
      (xorBytes input key).getD i 0 =
        input.getD i 0 ^^^ key.getD (i % key.length) 0 := by
  rw [xorBytes_eq input key hkey]
  refine ⟨xorChunk_length key 0 input, ?_⟩
  intro i hi
  rw [xorChunk_getD, if_pos hi, Nat.zero_add]

/-- Witness for C1 at input `[1, 2, 3]`, key `[5, 6]`. -/
theorem C1_witness :
    (xorBytes [1, 2, 3] [5, 6]).length = ([1, 2, 3] : List Nat).length ∧
    (xorBytes [1, 2, 3] [5, 6]).getD 2 0 =
      ([1, 2, 3] : List Nat).getD 2 0 ^^^ ([5, 6] : List Nat).getD (2 % 2) 0 := by
  have h := C1_xor_length_and_pointwise [1, 2, 3] [5, 6] (by decide)
  exact ⟨h.1, h.2 2 (by decide)⟩

/-- C2: applying the XOR transform twice with the same non-empty key
returns the original input: `xor(xor(p, k), k) = p`. -/
theorem C2_roundtrip (p k : List Nat) (hk : k ≠ []) :
    xorBytes (xorBytes p k) k = p := by
  rw [xorBytes_eq p k hk, xorBytes_eq _ k hk, xorChunk_involutive]

/-- Witness for C2 at `p = [7, 8, 9]`, `k = [3]`. -/
theorem C2_witness : xorBytes (xorBytes [7, 8, 9] [3]) [3] = [7, 8, 9] :=
  C2_roundtrip [7, 8, 9] [3] (by decide)

/-- C3 counterexample: with the empty key and the non-empty input `[0]`,
the transform fails via the index-out-of-bounds panic of
`key_bytes[key_idx]` on the empty key slice — not via a structured
`InvalidKey` error, which the code never constructs. -/
theorem C3_counterexample :
    xorRun [0] [] = .error (.indexOutOfBounds 0 0) ∧
    xorRun [0] [] ≠ .error .invalidKey := by
  refine ⟨rfl, ?_⟩
  intro h
  rw [show xorRun [0] [] = .error (.indexOutOfBounds 0 0) from rfl] at h
  exact XorFailure.noConfusion (Except.error.inj h)

/-- C3 amended: for every non-empty input, invoking the XOR transform with
a zero-length key fails — with an index-out-of-bounds panic on the key
lookup, not a structured `InvalidKey` error value — and never returns an
output sequence. -/
theorem C3_empty_key_fails (input : List Nat) (h : input ≠ []) :
    xorRun input [] = .error (.indexOutOfBounds 0 0) ∧
    ∀ s, xorRun input [] ≠ .ok s := by
  obtain ⟨b, bs, rfl⟩ := List.exists_cons_of_ne_nil h
  refine ⟨rfl, ?_⟩
  intro s hs
  rw [show xorRun (b :: bs) [] = .error (.indexOutOfBounds 0 0) from rfl] at hs
  exact Except.noConfusion hs

/-- Witness for C3 (amended) at input `[42]`. -/
theorem C3_witness :
    xorRun [42] [] = .error (.indexOutOfBounds 0 0) :=
  (C3_empty_key_fails [42] (by decide)).1

/-- C4 counterexample: with input `[0]` and key `[5]` — input not longer
than the key — the "key reused" warning is nevertheless emitted (the code
warns as soon as `key_idx` reaches `key.len()`, which happens when the
input length merely equals the key length). -/
theorem C4_counterexample :
    ([0] : List Nat).length ≤ ([5] : List Nat).length ∧
    xorRun [0] [5] = .ok ⟨0, true, 1, [5]⟩ := by
  exact ⟨by decide, rfl⟩

/-- C4 amended: for every non-empty key, the invocation succeeds and the
"key reused" advisory is emitted exactly when the input length is at least
the key length (so also in the equal-length boundary case, where the key is
fully consumed but no byte actually reuses it); it is emitted at most once
per invocation, i.e. exactly once when it fires at all. -/
theorem C4_warning_iff (input key : List Nat) (hk : key ≠ []) :
    ∃ s, xorRun input key = .ok s ∧
      (s.warnShown = true ↔ key.length ≤ input.length) ∧
      s.warnCount ≤ 1 ∧
      s.warnCount = (if key.length ≤ input.length then 1 else 0) := by
  refine ⟨_, xorRun_ok input key hk, ?_, ?_, rfl⟩
  · simp
  · by_cases h : key.length ≤ input.length <;> simp [h]

/-- Witness for C4 (amended) at input `[1, 2, 3]`, key `[9]`. -/
theorem C4_witness :
    ∃ s, xorRun [1, 2, 3] [9] = .ok s ∧
      (s.warnShown = true ↔ ([9] : List Nat).length ≤ ([1, 2, 3] : List Nat).length) ∧
      s.warnCount ≤ 1 ∧
      s.warnCount = (if ([9] : List Nat).length ≤ ([1, 2, 3] : List Nat).length then 1 else 0) :=
  C4_warning_iff [1, 2, 3] [9] (by decide)

/-! ## Key-length estimator (`avg_normalized_hamming_distance`) -/

/-- Number of set bits of a natural number: the per-byte Hamming weight
used by the `hamming` crate's `distance`. -/
def popCount : Nat → Nat
  | 0 => 0
  | n + 1 => (n + 1) % 2 + popCount ((n + 1) / 2)
decreasing_by exact Nat.div_lt_self (Nat.succ_pos n) Nat.one_lt_two

/-- `hamming::distance`: total number of differing bits between two
equal-length byte sequences (the crate XORs byte-wise and sums
population counts; it is only ever called on equal-length chunks here). -/
def hammingDistance (a b : List Nat) : Nat :=
  ((a.zip b).map (fun p => popCount (p.1 ^^^ p.2))).sum

/-- Rust `slice::chunks(s)`: consecutive chunks of `s` bytes, the last one
possibly shorter.  (`chunks` panics on `s = 0`; that case is unreachable
from `avg_normalized_hamming_distance`, whose key sizes start at 1, and is
mapped to `[]` here to keep the function total.) -/
def chunkList (s : Nat) (l : List Nat) : List (List Nat) :=
  if s = 0 then []
  else if l = [] then []
  else l.take s :: chunkList s (l.drop s)
termination_by l.length
decreasing_by
  rename_i h1 h2
  simp only [List.length_drop]
  have : l.length ≠ 0 := fun h => h2 (List.length_eq_zero.mp h)
  omega

/-- The `for _ in 1..3` sampling loop of `avg_normalized_hamming_distance`
(src/lib.rs lines 237-263), with the loop's remaining iteration count made
explicit as fuel (the Rust loop body runs twice): pull two chunks from the
iterator, stop when either is missing or their lengths differ, otherwise
accumulate the normalized Hamming distance and count the pair.  Returns
(`num_chunks_compared`, accumulated `average_hamming_dist` before the final
division). -/
def sampleLoop (s : Nat) : List (List Nat) → Nat → Nat × ℚ
  | _, 0 => (0, 0)
  | cs, fuel + 1 =>
      match cs with
      | left :: right :: rest =>
          if left.length = right.length then
            let nh : ℚ := (hammingDistance left right : ℚ) / (s : ℚ)
            let p := sampleLoop s rest fuel
            (p.1 + 1, p.2 + nh)
          else (0, 0)
      | _ => (0, 0)

/-- `avg_normalized_hamming_distance` (src/lib.rs lines 225-274): for each
keysize from 1 to `max_keysize`, run the sampling loop on the chunked input
and, when at least one pair was compared, record the accumulated distance
divided by the pair count.  The Rust `HashMap` is modelled as the
association list of its insertions (keys are inserted once each, in
increasing keysize order). -/
def avg_normalized_hamming_distance (input : List Nat) (max_keysize : Nat) :
    List (Nat × ℚ) :=
  (List.range' 1 max_keysize).filterMap (fun keysize =>
    let p := sampleLoop keysize (chunkList keysize input) 2
    if p.1 ≠ 0 then some (keysize, p.2 / (p.1 : ℚ)) else none)

/-- Modelled from the spec (§4.2 step 2): walk the chunk sequence pairwise,
"chunk 1 vs 2, chunk 3 vs 4, …" — disjoint adjacent pairs. -/
def adjacentPairs : List (List Nat) → List (List Nat × List Nat)
  | a :: b :: rest => (a, b) :: adjacentPairs rest
  | _ => []

/-- Modelled from the spec (C6): the disjoint adjacent chunk pairs actually
compared for keysize `s` — stopping at the first incomplete (unequal-length)
pair, and at most two pairs (the default sampling bound). -/
def comparedPairs (s : Nat) (input : List Nat) : List (List Nat × List Nat) :=
  ((adjacentPairs (chunkList s input)).takeWhile
      (fun p => p.1.length == p.2.length)).take 2

/-- Modelled from the spec: normalized Hamming distance of a chunk pair —
bit-difference count divided by the keysize. -/
def normalizedDistance (s : Nat) (p : List Nat × List Nat) : ℚ :=
  (hammingDistance p.1 p.2 : ℚ) / (s : ℚ)

/-- Modelled from the spec: the mean of the normalized Hamming distances of
the pairs actually compared. -/
def specMean (s : Nat) (input : List Nat) : ℚ :=
  ((comparedPairs s input).map (normalizedDistance s)).sum /
    ((comparedPairs s input).length : ℚ)

/-- The sampling loop computes exactly the count and the sum of normalized
distances of the spec's compared pairs (bounded by the fuel). -/
theorem sampleLoop_eq_spec (s : Nat) :
    ∀ (fuel : Nat) (cs : List (List Nat)),
      sampleLoop s cs fuel =
        ((((adjacentPairs cs).takeWhile
            (fun p => p.1.length == p.2.length)).take fuel).length,
         (((((adjacentPairs cs).takeWhile
            (fun p => p.1.length == p.2.length)).take fuel).map
              (normalizedDistance s)).sum)) := by
  intro fuel
  induction fuel with
  | zero => intro cs; simp [sampleLoop]
  | succ fuel ih =>
      intro cs
      match cs with
      | [] => simp [sampleLoop, adjacentPairs]
      | [a] => simp [sampleLoop, adjacentPairs]
      | a :: b :: rest =>
          by_cases h : a.length = b.length
          · simp only [sampleLoop, if_pos h, ih rest, adjacentPairs]
            rw [List.takeWhile_cons_of_pos (by simpa using h)]
            simp [normalizedDistance, Nat.add_comm, Rat.add_comm]
          · simp only [sampleLoop, if_neg h, adjacentPairs]
            rw [List.takeWhile_cons_of_neg (by simpa using h)]
            simp

/-! ### Association-list lookup over the estimator's insertions -/

theorem lookup_cons_eq (s k : Nat) (v : ℚ) (es : List (Nat × ℚ)) :
    List.lookup s ((k, v) :: es) =
      if s = k then some v else List.lookup s es := by
  rw [List.lookup]
  by_cases h : s = k
  · have hb : (s == k) = true := beq_iff_eq.mpr h
    rw [hb, if_pos h]
  · have hb : (s == k) = false := beq_eq_false_iff_ne.mpr h
    rw [hb, if_neg h]

theorem lookup_filterMap_range'_out (f : Nat → Option (Nat × ℚ))
    (hf : ∀ k p, f k = some p → p.1 = k) :
    ∀ (n a s : Nat), (s < a ∨ a + n ≤ s) →
      ((List.range' a n).filterMap f).lookup s = none := by
  intro n
  induction n with
  | zero => intro a s _; rfl
  | succ n ih =>
      intro a s hs
      rw [List.range'_succ a n 1]
      cases h : f a with
      | none =>
          rw [List.filterMap_cons_none h]
          exact ih (a + 1) s (by omega)
      | some p =>
          obtain ⟨k', v'⟩ := p
          have hk : k' = a := hf a (k', v') h
          rw [List.filterMap_cons_some h, lookup_cons_eq,
            if_neg (by rw [hk]; omega)]
          exact ih (a + 1) s (by omega)

theorem lookup_filterMap_range'_in (f : Nat → Option (Nat × ℚ))
    (hf : ∀ k p, f k = some p → p.1 = k) :
    ∀ (n a s : Nat), a ≤ s → s < a + n →
      ((List.range' a n).filterMap f).lookup s = (f s).map Prod.snd := by
  intro n
  induction n with
  | zero => intro a s h1 h2; omega
  | succ n ih =>
      intro a s h1 h2
      rw [List.range'_succ a n 1]
      by_cases hsa : s = a
      · subst hsa
        cases h : f s with
        | none =>
            rw [List.filterMap_cons_none h,
              lookup_filterMap_range'_out f hf n (s + 1) s (by omega)]
            rfl
        | some p =>
            obtain ⟨k', v'⟩ := p
            have hk : k' = s := hf s (k', v') h
            rw [List.filterMap_cons_some h, lookup_cons_eq, if_pos hk.symm]
            rfl
      · cases h : f a with
        | none =>
            rw [List.filterMap_cons_none h]
            exact ih (a + 1) s (by omega) (by omega)
        | some p =>
            obtain ⟨k', v'⟩ := p
            have hk : k' = a := hf a (k', v') h
            rw [List.filterMap_cons_some h, lookup_cons_eq,
              if_neg (by rw [hk]; exact hsa)]
            exact ih (a + 1) s (by omega) (by omega)

/-- Closed form for a lookup in the estimator's table. -/
theorem avg_lookup (input : List Nat) (max_keysize s : Nat)
    (h1 : 1 ≤ s) (h2 : s ≤ max_keysize) :
    (avg_normalized_hamming_distance input max_keysize).lookup s =
      (if (sampleLoop s (chunkList s input) 2).1 ≠ 0
       then some ((sampleLoop s (chunkList s input) 2).2 /
          ((sampleLoop s (chunkList s input) 2).1 : ℚ))
       else none) := by
  rw [avg_normalized_hamming_distance]
  rw [lookup_filterMap_range'_in _ ?hf max_keysize 1 s h1 (by omega)]
  case hf =>
    intro k p hp
    simp only at hp
    by_cases h : (sampleLoop k (chunkList k input) 2).1 ≠ 0
    · rw [if_pos h] at hp
      exact (Option.some.inj hp ▸ rfl : p.1 = k)
    · rw [if_neg h] at hp
      exact absurd hp (by simp)
  by_cases h : (sampleLoop s (chunkList s input) 2).1 ≠ 0
  · rw [if_pos h, if_pos h]
    rfl
  · rw [if_neg h, if_neg h]
    rfl

theorem chunkList_nil (s : Nat) : chunkList s [] = [] := by
  rw [chunkList]
  simp

theorem chunkList_cons (s : Nat) (l : List Nat) (hs : s ≠ 0) (hl : l ≠ []) :
    chunkList s l = l.take s :: chunkList s (l.drop s) := by
  rw [chunkList]
  simp [hs, hl]

theorem sampleLoop_nil (s fuel : Nat) : sampleLoop s [] fuel = (0, 0) := by
  cases fuel <;> rfl

theorem sampleLoop_single (s fuel : Nat) (c : List Nat) :
    sampleLoop s [c] fuel = (0, 0) := by
  cases fuel <;> rfl

theorem sampleLoop_pair_bad (s fuel : Nat) (a b : List Nat)
    (rest : List (List Nat)) (h : a.length ≠ b.length) :
    sampleLoop s (a :: b :: rest) (fuel + 1) = (0, 0) := by
  simp [sampleLoop, h]

/-- When the input is shorter than two full chunks, the sampling loop
compares no pair: either there are fewer than two chunks, or the second
chunk is the short final one and the length check breaks the loop. -/
theorem sampleLoop_count_zero (s : Nat) (l : List Nat)
    (hs : 1 ≤ s) (h : l.length < 2 * s) :
    (sampleLoop s (chunkList s l) 2).1 = 0 := by
  by_cases hl : l = []
  · subst hl
    rw [chunkList_nil, sampleLoop_nil]
  · by_cases hshort : l.length ≤ s
    · have hdrop : l.drop s = [] := List.drop_eq_nil_iff.mpr hshort
      rw [chunkList_cons s l (by omega) hl, hdrop, chunkList_nil,
        sampleLoop_single]
    · have hlen : s < l.length := by omega
      have hdrop_ne : l.drop s ≠ [] := by
        intro hd
        have := List.drop_eq_nil_iff.mp hd
        omega
      have hdrop2 : (l.drop s).drop s = [] := by
        rw [List.drop_drop]
        exact List.drop_eq_nil_iff.mpr (by omega)
      have htake2 : (l.drop s).take s = l.drop s :=
        List.take_of_length_le (by simp [List.length_drop]; omega)
      rw [chunkList_cons s l (by omega) hl,
        chunkList_cons s (l.drop s) (by omega) hdrop_ne,
        hdrop2, chunkList_nil, htake2]
      have hta : (l.take s).length = s := by
        simp [List.length_take]
        omega
      have htb : (l.drop s).length = l.length - s := by
        simp [List.length_drop]
      rw [show (2 : Nat) = 1 + 1 from rfl, sampleLoop_pair_bad]
      rw [hta, htb]
      omega

/-! ## Claims C5 and C6 -/

/-- C5: for every keysize `s` with `1 ≤ s ≤ max_keysize`, if the ciphertext
is shorter than `2 × s` bytes, the table returned by the key-length
estimator contains no entry for `s`; and an empty ciphertext yields an
empty table.  (The estimator is a total function, so it never fails.) -/
theorem C5_estimator_omission (input : List Nat) (max_keysize s : Nat)
    (h1 : 1 ≤ s) (h2 : s ≤ max_keysize) (h3 : input.length < 2 * s) :
    (avg_normalized_hamming_distance input max_keysize).lookup s = none ∧
    avg_normalized_hamming_distance [] max_keysize = [] := by
  constructor
  · rw [avg_lookup input max_keysize s h1 h2]
    simp [sampleLoop_count_zero s input h1 h3]
  · rw [avg_normalized_hamming_distance]
    apply List.filterMap_eq_nil_iff.mpr
    intro k _
    simp only [chunkList_nil, sampleLoop_nil, ne_eq, not_true_eq_false,
      ite_eq_right_iff]
    intro hk
    exact hk.elim

/-- Witness for C5: ciphertext `[1, 2, 3]` (3 bytes) with `max_keysize = 2`
and keysize `s = 2` (needs 4 bytes). -/
theorem C5_witness :
    (avg_normalized_hamming_distance [1, 2, 3] 2).lookup 2 = none ∧
    avg_normalized_hamming_distance [] 2 = [] :=
  C5_estimator_omission [1, 2, 3] 2 2 (by decide) (by decide) (by decide)

/-- C6: every value present in the estimator's table is the mean of the
normalized Hamming distances of the disjoint adjacent chunk pairs actually
compared, and between one and two pairs were compared. -/
theorem C6_table_value_is_mean (input : List Nat) (max_keysize s : Nat)
    (v : ℚ)
    (h : (avg_normalized_hamming_distance input max_keysize).lookup s = some v) :
    v = specMean s input ∧
    1 ≤ (comparedPairs s input).length ∧ (comparedPairs s input).length ≤ 2 := by
  by_cases hr : 1 ≤ s ∧ s ≤ max_keysize
  · rw [avg_lookup input max_keysize s hr.1 hr.2] at h
    by_cases hc : (sampleLoop s (chunkList s input) 2).1 ≠ 0
    · rw [if_pos hc] at h
      have hv := Option.some.inj h
      rw [sampleLoop_eq_spec s 2 (chunkList s input)] at hv hc
      simp only at hv hc
      refine ⟨?_, ?_, ?_⟩
      · rw [← hv, specMean, comparedPairs]
      · rw [comparedPairs]
        omega
      · rw [comparedPairs]
        exact List.length_take_le 2 _
    · rw [if_neg hc] at h
      exact absurd h (by simp)
  · rw [avg_normalized_hamming_distance] at h
    rw [lookup_filterMap_range'_out _ ?hf max_keysize 1 s (by omega)] at h
    case hf =>
      intro k p hp
      simp only at hp
      by_cases hck : (sampleLoop k (chunkList k input) 2).1 ≠ 0
      · rw [if_pos hck] at hp
        exact (Option.some.inj hp ▸ rfl : p.1 = k)
      · rw [if_neg hck] at hp
        exact absurd hp (by simp)
    exact absurd h (by simp)

/-- Witness for C6: ciphertext `[0, 255, 0, 255]`, `max_keysize = 1`,
keysize 1 — two pairs, each of normalized distance 8, mean 8. -/
theorem C6_witness :
    (8 : ℚ) = specMean 1 [0, 255, 0, 255] ∧
    1 ≤ (comparedPairs 1 [0, 255, 0, 255]).length ∧
    (comparedPairs 1 [0, 255, 0, 255]).length ≤ 2 := by
  refine C6_table_value_is_mean [0, 255, 0, 255] 1 1 8 ?_
  rw [avg_lookup [0, 255, 0, 255] 1 1 (by decide) (by decide)]
  have hc : chunkList 1 [0, 255, 0, 255] = [[0], [255], [0], [255]] := by
    simp [chunkList]
  rw [hc]
  norm_num [sampleLoop, hammingDistance, popCount]

/-! ## Candidate key enumerator (`gen_ascii_keys`) -/

/-- `recursive_add_keys` (src/lib.rs lines 185-198): depth-first extension
of the prefix by every byte `0..128` until the target length is reached,
appending each completed key to the accumulator `keys` (a `&mut Vec` in
Rust, threaded through the fold here).  Keys are modelled as byte lists:
`String::from_utf8` is the identity injection on ASCII bytes 0-127.  (A
prefix longer than the target length never arises from `gen_ascii_keys`,
whose prefixes grow one byte at a time up to the target; that unreachable
case is mapped to `keys` to keep the function total.) -/
def recursive_add_keys (len : Nat) (pre : List Nat) (keys : List (List Nat)) :
    List (List Nat) :=
  if pre.length = len then keys ++ [pre]
  else if pre.length < len then
    (List.range 128).foldl (fun ks idx => recursive_add_keys len (pre ++ [idx]) ks) keys
  else keys
termination_by len - pre.length
decreasing_by simp [List.length_append]; omega

/-- `gen_ascii_keys` (src/lib.rs lines 204-211): all ASCII keys of the
given length, starting from the empty prefix and empty accumulator. -/
def gen_ascii_keys (length : Nat) : List (List Nat) :=
  recursive_add_keys length [] []

/-- Closed recursive form of the generation order: all byte strings of
length `n` over `[0, 128)`, first position varying slowest. -/
def genAux : Nat → List (List Nat)
  | 0 => [[]]
  | n + 1 => (List.range 128).flatMap (fun i => (genAux n).map (fun k => i :: k))

theorem foldl_append_form (g : Nat → List (List Nat)) :
    ∀ (l : List Nat) (keys : List (List Nat)),
      l.foldl (fun ks i => ks ++ g i) keys = keys ++ l.flatMap g := by
  intro l
  induction l with
  | nil => intro keys; simp
  | cons a l ih =>
      intro keys
      rw [List.foldl_cons, ih, List.flatMap_cons, List.append_assoc]

theorem recursive_add_keys_eq (len : Nat) :
    ∀ (d : Nat) (pre : List Nat) (keys : List (List Nat)),
      pre.length + d = len →
      recursive_add_keys len pre keys
        = keys ++ (genAux d).map (fun t => pre ++ t) := by
  intro d
  induction d with
  | zero =>
      intro pre keys h
      rw [recursive_add_keys, if_pos (by omega)]
      simp [genAux]
  | succ d ih =>
      intro pre keys h
      rw [recursive_add_keys, if_neg (by omega), if_pos (by omega)]
      have hbody : ∀ idx (ks : List (List Nat)),
          recursive_add_keys len (pre ++ [idx]) ks
            = ks ++ (genAux d).map (fun t => (pre ++ [idx]) ++ t) := by
        intro idx ks
        exact ih (pre ++ [idx]) ks (by simp [List.length_append]; omega)
      have hfold : (List.range 128).foldl
            (fun ks idx => recursive_add_keys len (pre ++ [idx]) ks) keys
          = (List.range 128).foldl
            (fun ks idx => ks ++ (genAux d).map (fun t => (pre ++ [idx]) ++ t)) keys := by
        apply List.foldl_ext
        intro ks idx _
        exact hbody idx ks
      rw [hfold,
        foldl_append_form (fun idx => (genAux d).map (fun t => (pre ++ [idx]) ++ t))]
      refine congrArg _ ?_
      rw [genAux, List.map_flatMap]
      refine List.flatMap_congr (fun i _ => ?_)
      rw [List.map_map]
      refine List.map_congr_left (fun t _ => ?_)
      simp

/-- `gen_ascii_keys` equals the closed generation order. -/
theorem gen_ascii_keys_eq (L : Nat) : gen_ascii_keys L = genAux L := by
  rw [gen_ascii_keys, recursive_add_keys_eq L L [] [] (by simp)]
  simp

theorem genAux_length (n : Nat) : (genAux n).length = 128 ^ n := by
  induction n with
  | zero => rfl
  | succ n ih =>
      rw [genAux, List.length_flatMap]
      have hmap : (List.range 128).map (List.length ∘ fun i => (genAux n).map (fun k => i :: k))
          = (List.range 128).map (fun _ => 128 ^ n) := by
        refine List.map_congr_left (fun i _ => ?_)
        simp [ih]
      rw [hmap, List.map_const', List.sum_replicate, smul_eq_mul, List.length_range]
      rw [pow_succ, Nat.mul_comm]

theorem genAux_mem (n : Nat) :
    ∀ k ∈ genAux n, k.length = n ∧ ∀ b ∈ k, b < 128 := by
  induction n with
  | zero =>
      intro k hk
      simp only [genAux, List.mem_singleton] at hk
      subst hk
      simp
  | succ n ih =>
      intro k hk
      simp only [genAux, List.mem_flatMap, List.mem_map, List.mem_range] at hk
      obtain ⟨i, hi, t, ht, rfl⟩ := hk
      obtain ⟨hlen, hbits⟩ := ih t ht
      refine ⟨by simp [hlen], ?_⟩
      intro b hb
      rcases List.mem_cons.mp hb with rfl | hb
      · exact hi
      · exact hbits b hb

theorem lex_lt_irrefl : ∀ (l : List Nat), ¬ List.Lex (· < ·) l l := by
  intro l
  induction l with
  | nil => intro h; cases h
  | cons a l ih =>
      intro h
      cases h with
      | cons h => exact ih h
      | rel h => exact lt_irrefl a h

theorem genAux_pairwise_lex (n : Nat) :
    (genAux n).Pairwise (List.Lex (· < ·)) := by
  induction n with
  | zero => simp [genAux]
  | succ n ih =>
      rw [genAux, List.flatMap_def]
      apply List.pairwise_flatten.mpr
      constructor
      · intro l hl
        simp only [List.mem_map, List.mem_range] at hl
        obtain ⟨i, _, rfl⟩ := hl
        exact List.Pairwise.map _ (fun a b h => List.Lex.cons h) ih
      · apply (List.pairwise_map).mpr
        apply (List.pairwise_lt_range 128).imp
        intro i j hij
        intro x hx y hy
        simp only [List.mem_map] at hx hy
        obtain ⟨tx, _, rfl⟩ := hx
        obtain ⟨ty, _, rfl⟩ := hy
        exact List.Lex.rel hij

theorem genAux_nodup (n : Nat) : (genAux n).Nodup := by
  refine (genAux_pairwise_lex n).imp ?_
  intro a b h hab
  subst hab
  exact lex_lt_irrefl a h

/-! ## Claim C7 -/

/-- C7: for every length `L`, the candidate key enumerator yields exactly
`128 ^ L` byte strings, each of exactly `L` bytes with every byte below
128, with no duplicates, in ascending lexicographic order (first position
varying slowest); `L = 0` yields exactly the one-element list holding the
empty string. -/
theorem C7_enumerator (L : Nat) :
    (gen_ascii_keys L).length = 128 ^ L ∧
    (∀ k ∈ gen_ascii_keys L, k.length = L ∧ ∀ b ∈ k, b < 128) ∧
    (gen_ascii_keys L).Nodup ∧
    (gen_ascii_keys L).Pairwise (List.Lex (· < ·)) ∧
    gen_ascii_keys 0 = [[]] := by
  rw [gen_ascii_keys_eq L]
  refine ⟨genAux_length L, genAux_mem L, genAux_nodup L,
    genAux_pairwise_lex L, ?_⟩
  rw [gen_ascii_keys_eq 0]
  rfl

/-! ## Plaintext-likelihood scorer (`Score for String`, `score_words`) -/

/-- `get_char_score_map` (src/lib.rs lines 313-345): expected relative
frequency, in percent, of the space character and each lowercase letter.
The Rust `HashMap` lookup `get(&c)` is the `Option`-valued function; the
`f32` literals are exact decimals, modelled as the same rationals. -/
def get_char_score_map (c : Char) : Option ℚ :=
  if c = ' ' then some 15
  else if c = 'e' then some (12702 / 1000)
  else if c = 't' then some (9056 / 1000)
  else if c = 'a' then some (8167 / 1000)
  else if c = 'o' then some (7507 / 1000)
  else if c = 'i' then some (6966 / 1000)
  else if c = 'n' then some (6749 / 1000)
  else if c = 's' then some (6327 / 1000)
  else if c = 'h' then some (6094 / 1000)
  else if c = 'r' then some (5987 / 1000)
  else if c = 'd' then some (4253 / 1000)
  else if c = 'l' then some (4025 / 1000)
  else if c = 'c' then some (2782 / 1000)
  else if c = 'u' then some (2758 / 1000)
  else if c = 'm' then some (2406 / 1000)
  else if c = 'w' then some (2360 / 1000)
  else if c = 'f' then some (2228 / 1000)
  else if c = 'g' then some (2015 / 1000)
  else if c = 'y' then some (1974 / 1000)
  else if c = 'p' then some (1929 / 1000)
  else if c = 'b' then some (1492 / 1000)
  else if c = 'v' then some (978 / 1000)
  else if c = 'k' then some (772 / 1000)
  else if c = 'j' then some (153 / 1000)
  else if c = 'x' then some (150 / 1000)
  else if c = 'q' then some (95 / 1000)
  else if c = 'z' then some (74 / 1000)
  else none

/-- Rust `char::is_ascii`. -/
def isAscii (c : Char) : Bool := c.toNat < 128

/-- Rust `char::to_ascii_lowercase`: adds 32 to `A`-`Z` only. -/
def toAsciiLower (c : Char) : Char :=
  if 'A' ≤ c ∧ c ≤ 'Z' then Char.ofNat (c.toNat + 32) else c

/-- The UTF-8 byte length of a string, which is what Rust `str::len`
returns. -/
def utf8Length (s : List Char) : Nat := (s.map Char.utf8Size).sum

/-- The `ascii_only` intermediate of `Score for String` (src/lib.rs lines
95-100): keep ASCII characters, lowercase them, keep those present in the
reference table.  Its Rust byte length equals its character count, because
every retained character is ASCII. -/
def asciiOnly (s : List Char) : List Char :=
  ((s.filter (fun c => isAscii c)).map toAsciiLower).filter
    (fun c => (get_char_score_map c).isSome)

/-- `Score for String` (src/lib.rs lines 88-133).  Strings are lists of
characters; the `f32` arithmetic is exact over `ℚ`.  The actual-frequency
map has the distinct characters of `ascii_only` as keys (modelled by
`dedup`; summation order is irrelevant over `ℚ`), each mapped to its count
divided by `ascii_only.len()`.  On the empty input string the Rust code
computes the proportion `0.0 / 0.0 = NaN` and the final score
`0.0 * NaN = NaN`; that (only reachable) IEEE special value is modelled as
`none`. -/
def scoreString (s : List Char) : Option ℚ :=
  let ascii := asciiOnly s
  let sum : ℚ := (ascii.dedup.map (fun c =>
      |(get_char_score_map c).getD 0 - (ascii.count c : ℚ) / (ascii.length : ℚ)| * 10)).sum
  if utf8Length s = 0 then none
  else some (sum * ((ascii.length : ℚ) / (utf8Length s : ℚ)))

/-- Rust `str::contains(pat)`: `pat` occurs as a contiguous substring. -/
def containsSub (pat : List Char) : List Char → Bool
  | [] => pat.isEmpty
  | c :: rest => pat.isPrefixOf (c :: rest) || containsSub pat rest

/-- Rust `String::replacen(pat, "", 1)`: remove the first (leftmost)
occurrence of `pat`, if any. -/
def removeFirstOcc : List Char → List Char → List Char
  | [], _ => []
  | c :: rest, pat =>
      if pat.isPrefixOf (c :: rest) then (c :: rest).drop pat.length
      else c :: removeFirstOcc rest pat

/-- `score_words` (src/lib.rs lines 276-296), parametric in the
exponential (`f32::exp` is transcendental, and no claim depends on its
values): walk the dictionary in order; each word contained in the working
copy adds `3 * expf(word.len())` and has one occurrence removed from the
working copy. -/
def score_words (expf : Nat → ℚ) : List Char → List (List Char) → ℚ
  | _, [] => 0
  | input, w :: ws =>
      if containsSub w input then
        3 * expf w.length + score_words expf (removeFirstOcc input w) ws
      else score_words expf input ws

/-- Exact score of the prose string of the `scoring_strings_works` test. -/
theorem scoreString_prose :
    scoreString ['h','e','l','l','o',' ','w','o','r','l','d'] = some (14232 / 25) := by
  have ha : asciiOnly ['h','e','l','l','o',' ','w','o','r','l','d']
      = ['h','e','l','l','o',' ','w','o','r','l','d'] := by decide
  have hd : (['h','e','l','l','o',' ','w','o','r','l','d'] : List Char).dedup
      = ['h', 'e', ' ', 'w', 'o', 'r', 'l', 'd'] := by decide
  have hu : utf8Length ['h','e','l','l','o',' ','w','o','r','l','d'] = 11 := by decide
  have hl : (['h','e','l','l','o',' ','w','o','r','l','d'] : List Char).length = 11 := by decide
  have eh : (get_char_score_map 'h').getD 0 = 6094 / 1000 := rfl
  have ee : (get_char_score_map 'e').getD 0 = 12702 / 1000 := rfl
  have esp : (get_char_score_map ' ').getD 0 = 15 := rfl
  have ew : (get_char_score_map 'w').getD 0 = 2360 / 1000 := rfl
  have eo : (get_char_score_map 'o').getD 0 = 7507 / 1000 := rfl
  have er : (get_char_score_map 'r').getD 0 = 5987 / 1000 := rfl
  have el : (get_char_score_map 'l').getD 0 = 4025 / 1000 := rfl
  have ed : (get_char_score_map 'd').getD 0 = 4253 / 1000 := rfl
  have ch : List.count 'h' ['h','e','l','l','o',' ','w','o','r','l','d'] = 1 := by decide
  have ce : List.count 'e' ['h','e','l','l','o',' ','w','o','r','l','d'] = 1 := by decide
  have csp : List.count ' ' ['h','e','l','l','o',' ','w','o','r','l','d'] = 1 := by decide
  have cw : List.count 'w' ['h','e','l','l','o',' ','w','o','r','l','d'] = 1 := by decide
  have co : List.count 'o' ['h','e','l','l','o',' ','w','o','r','l','d'] = 2 := by decide
  have cr : List.count 'r' ['h','e','l','l','o',' ','w','o','r','l','d'] = 1 := by decide
  have cl : List.count 'l' ['h','e','l','l','o',' ','w','o','r','l','d'] = 3 := by decide
  have cd : List.count 'd' ['h','e','l','l','o',' ','w','o','r','l','d'] = 1 := by decide
  simp only [scoreString, ha, hd, hu, hl, List.map_cons, List.map_nil,
    List.sum_cons, List.sum_nil, eh, ee, esp, ew, eo, er, el, ed,
    ch, ce, csp, cw, co, cr, cl, cd]
  norm_num [abs_of_nonneg]

/-- Exact score of the punctuation/digit noise string of the test. -/
theorem scoreString_noisePunct :
    scoreString ['9','[',';',',','1','.','2','3',',','4','5'] = some 0 := by
  have ha : asciiOnly ['9','[',';',',','1','.','2','3',',','4','5'] = [] := by decide
  have hu : utf8Length ['9','[',';',',','1','.','2','3',',','4','5'] = 11 := by decide
  simp only [scoreString, ha, hu, List.dedup_nil, List.map_nil, List.sum_nil]
  norm_num

/-- Exact score of the symbol noise string of the test. -/
theorem scoreString_noiseSymbols :
    scoreString ['$','*','(','&','^','$','@','!','a','s','3'] = some (6747 / 275) := by
  have ha : asciiOnly ['$','*','(','&','^','$','@','!','a','s','3'] = ['a','s'] := by decide
  have hd : (['a','s'] : List Char).dedup = ['a','s'] := by decide
  have hu : utf8Length ['$','*','(','&','^','$','@','!','a','s','3'] = 11 := by decide
  have hl : (['a','s'] : List Char).length = 2 := by decide
  have ea : (get_char_score_map 'a').getD 0 = 8167 / 1000 := rfl
  have es : (get_char_score_map 's').getD 0 = 6327 / 1000 := rfl
  have ca : List.count 'a' ['a','s'] = 1 := by decide
  have cs : List.count 's' ['a','s'] = 1 := by decide
  simp only [scoreString, ha, hd, hu, hl, List.map_cons, List.map_nil,
    List.sum_cons, List.sum_nil, ea, es, ca, cs]
  norm_num [abs_of_nonneg]

/-- Exact score of the alphanumeric noise string of the test. -/
theorem scoreString_noiseAlnum :
    scoreString ['k','j','1','2','a','s','d','8','9','h','h'] = some (86681 / 550) := by
  have ha : asciiOnly ['k','j','1','2','a','s','d','8','9','h','h']
      = ['k','j','a','s','d','h','h'] := by decide
  have hd : (['k','j','a','s','d','h','h'] : List Char).dedup
      = ['k','j','a','s','d','h'] := by decide
  have hu : utf8Length ['k','j','1','2','a','s','d','8','9','h','h'] = 11 := by decide
  have hl : (['k','j','a','s','d','h','h'] : List Char).length = 7 := by decide
  have ek : (get_char_score_map 'k').getD 0 = 772 / 1000 := rfl
  have ej : (get_char_score_map 'j').getD 0 = 153 / 1000 := rfl
  have ea : (get_char_score_map 'a').getD 0 = 8167 / 1000 := rfl
  have es : (get_char_score_map 's').getD 0 = 6327 / 1000 := rfl
  have ed : (get_char_score_map 'd').getD 0 = 4253 / 1000 := rfl
  have eh : (get_char_score_map 'h').getD 0 = 6094 / 1000 := rfl
  have ck : List.count 'k' ['k','j','a','s','d','h','h'] = 1 := by decide
  have cj : List.count 'j' ['k','j','a','s','d','h','h'] = 1 := by decide
  have ca : List.count 'a' ['k','j','a','s','d','h','h'] = 1 := by decide
  have cs : List.count 's' ['k','j','a','s','d','h','h'] = 1 := by decide
  have cd : List.count 'd' ['k','j','a','s','d','h','h'] = 1 := by decide
  have ch : List.count 'h' ['k','j','a','s','d','h','h'] = 2 := by decide
  simp only [scoreString, ha, hd, hu, hl, List.map_cons, List.map_nil,
    List.sum_cons, List.sum_nil, ek, ej, ea, es, ed, eh,
    ck, cj, ca, cs, cd, ch]
  norm_num [abs_of_nonneg]

/-! ## Claims C8, C9 and C10 -/

/-- C8: under the same scoring configuration, the score of the English
prose string "hello world" strictly exceeds the scores of the noise
strings "9[;,1.23,45", "$*(&^$@!as3" and "kj12asd89hh". -/
theorem C8_prose_outscores_noise :
    ∃ a b c d : ℚ,
      scoreString ['h','e','l','l','o',' ','w','o','r','l','d'] = some a ∧
      scoreString ['9','[',';',',','1','.','2','3',',','4','5'] = some b ∧
      scoreString ['$','*','(','&','^','$','@','!','a','s','3'] = some c ∧
      scoreString ['k','j','1','2','a','s','d','8','9','h','h'] = some d ∧
      b < a ∧ c < a ∧ d < a :=
  ⟨14232 / 25, 0, 6747 / 275, 86681 / 550,
   scoreString_prose, scoreString_noisePunct, scoreString_noiseSymbols,
   scoreString_noiseAlnum, by norm_num, by norm_num, by norm_num⟩

/-- C9: with dictionary `["cat"]` and input `"cat cat"`, the word-bonus
component adds `3 * exp 3` exactly once — the first occurrence is consumed
from the working copy and not counted twice — whatever the exponential
function is. -/
theorem C9_dictionary_no_reuse (expf : Nat → ℚ) :
    score_words expf ['c','a','t',' ','c','a','t'] [['c','a','t']] = 3 * expf 3 := by
  have h1 : containsSub ['c','a','t'] ['c','a','t',' ','c','a','t'] = true := by decide
  have h2 : removeFirstOcc ['c','a','t',' ','c','a','t'] ['c','a','t']
      = [' ','c','a','t'] := by decide
  have h3 : (['c','a','t'] : List Char).length = 3 := by decide
  simp only [score_words, h1, h2, h3, if_true]
  norm_num

/-- C10 counterexample: scoring the empty string is not a numeric score —
the Rust code computes the proportion `0.0 / 0.0 = NaN` and returns NaN
(`none` in this model), contradicting "never NaN". -/
theorem C10_counterexample : scoreString [] = none := rfl

/-- C10 amended: scoring a non-empty string containing no characters of
the reference frequency table is not a failure and returns exactly 0; the
empty string is the exception, where the code's `0.0 / 0.0` proportion
makes the score NaN rather than a number. -/
theorem C10_no_recognized_chars (s : List Char)
    (h1 : s ≠ []) (h2 : asciiOnly s = []) :
    scoreString s = some 0 := by
  have hu : utf8Length s ≠ 0 := by
    cases s with
    | nil => exact absurd rfl h1
    | cons c rest =>
        have hpos : 0 < Char.utf8Size c := Char.utf8Size_pos c
        simp only [utf8Length, List.map_cons, List.sum_cons]
        omega
  simp only [scoreString, h2, List.dedup_nil, List.map_nil, List.sum_nil,
    if_neg hu]
  norm_num

/-- Witness for C10 (amended) at the all-digit string "123". -/
theorem C10_witness : scoreString ['1','2','3'] = some 0 :=
  C10_no_recognized_chars ['1','2','3'] (by decide) (by decide)

end XorUtils
